import Mathlib

/-!
Verification development for the tamper-evident audit ledger subsystem
(`audit_ledger_service`): events, hash-chained ledger, Merkle aggregation,
periodic anchoring and the verifier.

Hashing model: the code hashes deterministic JSON serializations with
SHA-256.  We embed the hash outputs as a free term algebra `Hash`: each
syntactically distinct preimage shape used by the code gets its own
constructor, so equal inputs give equal hashes and distinct inputs give
distinct hashes (the standard collision-freeness idealization of a
cryptographic hash).  The fixed constants are separate constructors:
`Hash.genesis` stands for the all-zero 64-hex string
"000...0" (`AuditLedger._genesis_hash`), and sha256("empty")
(`MerkleTree._empty_hash`, hex value 2e1cfa82...) is `Hash.ofString "empty"`;
these two concrete hex strings are distinct in the code, as the
constructors are in the model.
-/

/-- Values stored in `payload` / `metadata` dictionaries (Python `Any`;
the code only ever serializes and compares them). -/
inductive Val where
  | int (n : Int)
  | str (s : String)
  | bool (b : Bool)
  deriving DecidableEq, Repr

/-- A Python `Dict[str, Any]` as an association list (canonical key-sorted
form; Python dicts have unique keys). -/
abbrev Dict := List (String × Val)

/-- Membership test `key in dict`. -/
def Dict.hasKey (d : Dict) (k : String) : Bool :=
  d.any (fun p => p.1 == k)

/-- Free term model of the SHA-256 hex digests the code computes.
`ofEntry` is sha256 of the key-sorted JSON of a ledger-entry content dict
(keys: action, actor, candidate_id, event_id, event_type, metadata,
payload, prev_hash, session_id, timestamp); `ofString` is sha256 of a raw
string (`MerkleTree.hash_data`); `pair` is sha256 of the JSON list
`[left, right]` (`MerkleTree.hash_pair`, order-sensitive); `ofRootDate` is
sha256 of the JSON of `{"date": date, "merkle_root": root}`
(`PeriodicAnchoring._compute_anchor_hash`); `genesis` is the all-zero
constant. -/
inductive Hash where
  | genesis
  | ofString (s : String)
  | ofEntry (event_id : Nat) (timestamp : Int)
      (session_id candidate_id actor event_type action : String)
      (payload : Dict) (meta : Dict) (prev_hash : Hash)
  | pair (l r : Hash)
  | ofRootDate (root : Hash) (date : String)
  deriving DecidableEq, Repr

/-- Embeds `AuditLedger._genesis_hash` / `AuditVerifier.GENESIS_HASH`
(the 64-character all-zero hex string). -/
def genesisHash : Hash := Hash.genesis

/-- Embeds `MerkleTree._empty_hash = sha256(b"empty")`. -/
def emptyHash : Hash := Hash.ofString "empty"

/-- The `EventType` enum from events.py. -/
inductive EventType where
  | session_start | session_end | consent_recorded
  | diagnostic_start | diagnostic_submit
  | interview_start | interview_submit
  | answer_submitted | item_viewed
  | terminate | timeout
  | scoring_run_created | scoring_rescore
  deriving DecidableEq, Repr

/-- The `.value` string of each enum member. -/
def EventType.value : EventType → String
  | .session_start => "session_start"
  | .session_end => "session_end"
  | .consent_recorded => "consent_recorded"
  | .diagnostic_start => "diagnostic_start"
  | .diagnostic_submit => "diagnostic_submit"
  | .interview_start => "interview_start"
  | .interview_submit => "interview_submit"
  | .answer_submitted => "answer_submitted"
  | .item_viewed => "item_viewed"
  | .terminate => "terminate"
  | .timeout => "timeout"
  | .scoring_run_created => "scoring_run_created"
  | .scoring_rescore => "scoring_rescore"

/-- Required payload keys per event type (`PAYLOAD_SCHEMAS[t]["required"]`). -/
def requiredFields : EventType → List String
  | .session_start => ["ip_address", "user_agent"]
  | .session_end => ["reason"]
  | .consent_recorded => ["consent_version", "consent_given"]
  | .diagnostic_start => ["item_count"]
  | .diagnostic_submit => ["items_attempted", "items_correct"]
  | .interview_start => ["challenge_ids"]
  | .interview_submit => ["responses_recorded"]
  | .answer_submitted => ["item_id", "response"]
  | .item_viewed => ["item_id"]
  | .terminate => ["reason"]
  | .timeout => ["session_duration"]
  | .scoring_run_created =>
      ["score_run_id", "response_snapshot_id", "rubric_version",
       "input_hash", "output_hash"]
  | .scoring_rescore =>
      ["score_run_id", "response_snapshot_id", "rubric_version",
       "input_hash", "output_hash"]

/-- Optional payload keys per event type (`PAYLOAD_SCHEMAS[t]["optional"]`;
never consulted by `validate_payload`). -/
def optionalFields : EventType → List String
  | .session_start => ["browser_fingerprint", "platform"]
  | .session_end => ["duration_seconds", "events_completed"]
  | .consent_recorded => ["ip_address"]
  | .diagnostic_start => ["time_limit"]
  | .diagnostic_submit => ["time_taken_seconds"]
  | .interview_start => ["time_limit"]
  | .interview_submit => ["duration_seconds"]
  | .answer_submitted => ["time_taken_seconds", "flagged"]
  | .item_viewed => ["view_duration_seconds"]
  | .terminate => ["actor", "notes"]
  | .timeout => ["last_activity"]
  | .scoring_run_created => ["feature_version"]
  | .scoring_rescore => ["feature_version", "reason"]

/-- The `AuditEvent` dataclass (timestamps modelled as integers; the code
never computes with them beyond storing and comparing). -/
structure AuditEvent where
  event_type : EventType
  session_id : String
  candidate_id : String
  timestamp : Int
  actor : String
  payload : Dict
  meta : Dict
  deriving DecidableEq, Repr

/-- Embeds `AuditEvent.validate_payload`: every `PAYLOAD_SCHEMAS` entry exists, so
the `.get(self.event_type, {})` default never fires; the loop returns
false on the first required key missing from the payload. -/
def AuditEvent.validate_payload (e : AuditEvent) : Bool :=
  (requiredFields e.event_type).all (fun k => e.payload.hasKey k)

/-- The `LedgerEntry` dataclass. -/
structure LedgerEntry where
  event_id : Nat
  timestamp : Int
  session_id : String
  candidate_id : String
  actor : String
  event_type : String
  action : String
  payload : Dict
  meta : Dict
  prev_hash : Hash
  hash : Hash
  deriving DecidableEq, Repr

/-- sha256 of `json.dumps(content, sort_keys=True)` for a ledger-entry
content dict.  Both `AuditLedger._compute_hash` (every call site passes
`include_genesis=False`, so the genesis branch is dead) and the verifier's
`_verify_entry_hash` compute exactly this. -/
def entryContentHash (event_id : Nat) (timestamp : Int)
    (session_id candidate_id actor event_type action : String)
    (payload meta : Dict) (prev_hash : Hash) : Hash :=
  Hash.ofEntry event_id timestamp session_id candidate_id actor
    event_type action payload meta prev_hash

/-- Hash recomputed from an entry with a given `prev_hash` input. -/
def recomputeHash (e : LedgerEntry) (prev : Hash) : Hash :=
  entryContentHash e.event_id e.timestamp e.session_id e.candidate_id
    e.actor e.event_type e.action e.payload e.meta prev

/-- Mutable state of `AuditLedger`. -/
structure AuditLedger where
  entries : List LedgerEntry
  next_event_id : Nat
  last_hash : Option Hash
  deriving DecidableEq, Repr

/-- Embeds `AuditLedger.__init__`. -/
def AuditLedger.fresh : AuditLedger :=
  { entries := [], next_event_id := 1, last_hash := none }

/-- Embeds `AuditLedger.record_audit_event`: returns the created entry and the
updated ledger state. -/
def AuditLedger.record_audit_event (l : AuditLedger) (event : AuditEvent) :
    LedgerEntry × AuditLedger :=
  let event_type_val := event.event_type.value
  let prev_hash := match l.last_hash with
    | some h => h
    | none => genesisHash
  let entry_hash := entryContentHash l.next_event_id event.timestamp
    event.session_id event.candidate_id event.actor event_type_val
    event_type_val event.payload event.meta prev_hash
  let entry : LedgerEntry :=
    { event_id := l.next_event_id
      timestamp := event.timestamp
      session_id := event.session_id
      candidate_id := event.candidate_id
      actor := event.actor
      event_type := event_type_val
      action := event_type_val
      payload := event.payload
      meta := event.meta
      prev_hash := prev_hash
      hash := entry_hash }
  (entry, { entries := l.entries ++ [entry]
            next_event_id := l.next_event_id + 1
            last_hash := some entry_hash })

/-- Embeds `AuditLedger.record_event` (legacy append path; `timestamp` stands for
the `time.time()` reading, an input of the model). -/
def AuditLedger.record_event (l : AuditLedger) (timestamp : Int)
    (session_id actor action : String) (payload : Dict)
    (candidate_id : String) : LedgerEntry × AuditLedger :=
  let prev_hash := match l.last_hash with
    | some h => h
    | none => genesisHash
  let entry_hash := entryContentHash l.next_event_id timestamp
    session_id candidate_id actor action action payload [] prev_hash
  let entry : LedgerEntry :=
    { event_id := l.next_event_id
      timestamp := timestamp
      session_id := session_id
      candidate_id := candidate_id
      actor := actor
      event_type := action
      action := action
      payload := payload
      meta := []
      prev_hash := prev_hash
      hash := entry_hash }
  (entry, { entries := l.entries ++ [entry]
            next_event_id := l.next_event_id + 1
            last_hash := some entry_hash })

/-- One append operation against the ledger (either write path). -/
inductive AppendOp where
  | audit (e : AuditEvent)
  | legacy (timestamp : Int) (session_id actor action : String)
      (payload : Dict) (candidate_id : String)
  deriving DecidableEq, Repr

/-- Apply one append to a ledger state. -/
def applyOp (l : AuditLedger) : AppendOp → AuditLedger
  | .audit e => (l.record_audit_event e).2
  | .legacy ts sid actor action payload cid =>
      (l.record_event ts sid actor action payload cid).2

/-- A ledger built solely by appends from the fresh state. -/
def buildLedger (ops : List AppendOp) : AuditLedger :=
  ops.foldl applyOp AuditLedger.fresh

/-- Embeds `AuditLedger.get_events_by_session`. -/
def AuditLedger.get_events_by_session (l : AuditLedger) (sid : String) :
    List LedgerEntry :=
  l.entries.filter (fun e => e.session_id == sid)

/-- Loop body of `AuditLedger.verify_chain`: recompute each entry's hash
with the running previous hash (genesis at the start, then the previous
entry's stored hash); return false on the first mismatch.  The stored
`prev_hash` field is never consulted. -/
def verifyChainFrom (prev : Hash) : List LedgerEntry → Bool
  | [] => true
  | e :: rest =>
      if recomputeHash e prev == e.hash then verifyChainFrom e.hash rest
      else false

/-- Embeds `AuditLedger.verify_chain`. -/
def AuditLedger.verify_chain (l : AuditLedger) : Bool :=
  verifyChainFrom genesisHash l.entries

/-- Loop of `AuditLedger.verify_session_events`: walk ALL entries in
order carrying the running previous hash; for entries of other sessions
only advance the running hash; for entries of the target session compare
the recomputation against the stored hash and collect mismatches. -/
def verifySessionLoop (sid : String) (prev : Hash) :
    List LedgerEntry → List LedgerEntry
  | [] => []
  | e :: rest =>
      if e.session_id != sid then verifySessionLoop sid e.hash rest
      else if recomputeHash e prev == e.hash then
        verifySessionLoop sid e.hash rest
      else e :: verifySessionLoop sid e.hash rest

/-- Embeds `AuditLedger.verify_session_events`: `(is_valid, invalid_entries)`. -/
def AuditLedger.verify_session_events (l : AuditLedger) (sid : String) :
    Bool × List LedgerEntry :=
  let session_events := l.get_events_by_session sid
  if session_events.isEmpty then (true, [])
  else
    let invalid := verifySessionLoop sid genesisHash l.entries
    (invalid.length == 0, invalid)

/-- Embeds `AuditVerifier._verify_entry_hash`: recompute the entry hash from its
stored fields, including the stored `prev_hash`. -/
def verifyEntryHash (e : LedgerEntry) : Bool :=
  recomputeHash e e.prev_hash == e.hash

/-- Structured rendering of the issue strings `detect_tampering` emits,
one constructor per message shape. -/
inductive Issue where
  | missingIds (ids : List Nat)
  | hashMismatch (event_id : Nat)
  | wrongFirstPrev (event_id : Nat)
  | brokenChain (event_id : Nat)
  deriving DecidableEq, Repr

/-- Python `min` over a nonempty list (`min(event_ids)`); the empty case
is unreachable behind the `session_events` emptiness guard. -/
def pyMin : List Nat → Nat
  | [] => 0
  | x :: xs => xs.foldl Nat.min x

/-- Python `max` over a nonempty list (`max(event_ids)`). -/
def pyMax : List Nat → Nat
  | [] => 0
  | x :: xs => xs.foldl Nat.max x

/-- Chain-link check of `detect_tampering` for the non-first entries:
each entry's stored `prev_hash` must equal the previous session entry's
stored hash. -/
def chainIssuesRest (prev : LedgerEntry) : List LedgerEntry → List Issue
  | [] => []
  | e :: rest =>
      (if e.prev_hash != prev.hash then [Issue.brokenChain e.event_id]
       else []) ++ chainIssuesRest e rest

/-- Chain-link check of `detect_tampering` (`i == 0` case uses genesis). -/
def chainIssues : List LedgerEntry → List Issue
  | [] => []
  | e :: rest =>
      (if e.prev_hash != genesisHash then [Issue.wrongFirstPrev e.event_id]
       else []) ++ chainIssuesRest e rest

/-- Gap check of `detect_tampering`:
`expected = range(min(ids), max(ids)+1)`,
`missing = sorted(set(expected) - set(ids))`; one issue when nonempty. -/
def gapIssuesOf (session_events : List LedgerEntry) : List Issue :=
  let event_ids := session_events.map (fun e => e.event_id)
  let lo := pyMin event_ids
  let hi := pyMax event_ids
  let expected := List.range' lo (hi + 1 - lo)
  let missing := expected.filter (fun n => !(event_ids.contains n))
  if !missing.isEmpty then [Issue.missingIds missing] else []

/-- Per-entry hash recomputation check of `detect_tampering`
(via `_verify_entry_hash`). -/
def hashIssuesOf (session_events : List LedgerEntry) : List Issue :=
  session_events.filterMap
    (fun e => if verifyEntryHash e then none
              else some (Issue.hashMismatch e.event_id))

/-- Embeds `AuditVerifier.detect_tampering` on a configured ledger:
`(tampered, issues)`; gap check, then hash recomputation, then the
prev_hash linkage check over the session's entries. -/
def detect_tampering (l : AuditLedger) (sid : String) :
    Bool × List Issue :=
  let session_events := l.get_events_by_session sid
  if session_events.isEmpty then (false, [])
  else
    let issues := gapIssuesOf session_events ++
      hashIssuesOf session_events ++ chainIssues session_events
    (issues.length > 0, issues)

/-- The `VerificationResult` dataclass (the wall-clock `checked_at` string
is an input of the model; `invalid_entries` keeps the reported
`(event_id, timestamp, hash, prev_hash)` dicts; `errors` keeps the event
ids of the "Invalid hash at event i" messages). -/
structure VerificationResult where
  is_valid : Bool
  session_id : String
  checked_at : String
  event_count : Nat
  first_event_timestamp : Option Int
  last_event_timestamp : Option Int
  invalid_entries : List (Nat × Int × Hash × Hash)
  chain_valid : Bool
  warnings : List String
  errors : List Nat
  deriving DecidableEq, Repr

/-- Embeds `AuditVerifier.verify_session` (the verifier's `self.ledger` is the
`Option AuditLedger`; appending the result to `verification_history` only
feeds `get_verification_summary` and is not modelled). -/
def verify_session (ledger : Option AuditLedger) (sid now : String) :
    VerificationResult :=
  match ledger with
  | none =>
      { is_valid := false, session_id := sid, checked_at := now
        event_count := 0, first_event_timestamp := none
        last_event_timestamp := none, invalid_entries := []
        chain_valid := true, warnings := []
        errors := [] }
  | some l =>
      let session_events := l.get_events_by_session sid
      match session_events with
      | [] =>
          { is_valid := true, session_id := sid, checked_at := now
            event_count := 0, first_event_timestamp := none
            last_event_timestamp := none, invalid_entries := []
            chain_valid := true
            warnings := ["No events found for session"], errors := [] }
      | e0 :: _ =>
          let res := l.verify_session_events sid
          let chain_valid := res.1
          let invalid := res.2
          { is_valid := chain_valid && invalid.length == 0
            session_id := sid, checked_at := now
            event_count := session_events.length
            first_event_timestamp := some e0.timestamp
            last_event_timestamp :=
              some ((session_events.getLastD e0).timestamp)
            invalid_entries := invalid.map
              (fun e => (e.event_id, e.timestamp, e.hash, e.prev_hash))
            chain_valid := chain_valid
            warnings := []
            errors := invalid.map (fun e => e.event_id) }

/-- Spec-side definition, written from the spec's words for claim C1 and
NOT from the code: "verify_chain() returns true iff no entry's stored
hash disagrees with recomputation AND no entry's prev_hash disagrees with
its predecessor's hash (genesis for the first entry)".  Recomputation
from stored fields is exactly `_verify_entry_hash`. -/
def specVerifyChain (l : AuditLedger) : Bool :=
  specPrevLinked genesisHash l.entries && l.entries.all verifyEntryHash
where
  /-- Stored `prev_hash` of each entry equals the predecessor's hash. -/
  specPrevLinked (prev : Hash) : List LedgerEntry → Bool
    | [] => true
    | e :: rest => e.prev_hash == prev && specPrevLinked e.hash rest

/-- The `MerkleProof` dataclass: `(sibling_hash, sibling_is_left)` pairs
from leaf to root; `verified` is false at construction and set by
`verify_proof`. -/
structure MerkleProof where
  leaf_hash : Hash
  root_hash : Hash
  proof : List (Hash × Bool)
  verified : Bool
  deriving DecidableEq, Repr

/-- Embeds `MerkleTree.hash_pair` (json list `[left, right]`; `sort_keys` does
not reorder a list, so left stays before right). -/
def hash_pair (l r : Hash) : Hash := Hash.pair l r

/-- Embeds `MerkleTree.hash_data`. -/
def hash_data (s : String) : Hash := Hash.ofString s

/-- One pass of the `while` loop in `MerkleTree.build`: pair adjacent
nodes left to right; an odd final node is paired with itself. -/
def nextLevel : List Hash → List Hash
  | [] => []
  | [x] => [hash_pair x x]
  | x :: y :: rest => hash_pair x y :: nextLevel rest

/-- The `_levels` list built by `MerkleTree.build` for a nonempty leaf
level: the leaf level, then each successive pairing, ending with the
single-node root level. -/
def buildLevels (l : List Hash) : List (List Hash) :=
  if _h : l.length ≤ 1 then [l]
  else l :: buildLevels (nextLevel l)
termination_by l.length
decreasing_by
  have hlen : ∀ m : List Hash, (nextLevel m).length = (m.length + 1) / 2 := by
    intro m
    induction m using nextLevel.induct with
    | case1 => simp [nextLevel]
    | case2 _x => simp [nextLevel]
    | case3 x y rest ih =>
        simp only [nextLevel, List.length_cons, ih]
        omega
  have := hlen l
  omega

/-- State of a built `MerkleTree` (nodes are observed only through their
hashes by `get_root_hash`, `prove_inclusion` and `verify_proof`, so
levels are kept as lists of hashes). -/
structure MerkleTree where
  leaves : List Hash
  levels : List (List Hash)
  root : Option Hash
  deriving DecidableEq, Repr

/-- Embeds `MerkleTree.build`: empty input returns the empty tree (no levels,
no root); otherwise hash each item into a leaf and pair upward. -/
def MerkleTree.build (data_items : List String) : MerkleTree :=
  match data_items with
  | [] => { leaves := [], levels := [], root := none }
  | _ =>
      let leaves := data_items.map hash_data
      let levels := buildLevels leaves
      { leaves := leaves
        levels := levels
        root := (levels.getLastD []).head? }

/-- Embeds `MerkleTree.get_root_hash`: the root's hash, or the fixed empty-hash
constant for an empty tree. -/
def MerkleTree.get_root_hash (t : MerkleTree) : Hash :=
  match t.root with
  | some h => h
  | none => emptyHash

/-- Loop of `MerkleTree.prove_inclusion` over
`range(len(self._levels) - 1)`: at each level record the sibling's hash
and whether the sibling is the left node; an even index with no right
neighbour records the node's own hash (self-pairing).  Out-of-range
indexing would raise in Python; the `getD` default is unreachable for
indices below the level length. -/
def proofSteps : List (List Hash) → Nat → List (Hash × Bool)
  | [], _ => []
  | [_], _ => []
  | level :: l2 :: rest, idx =>
      let step :=
        if idx % 2 == 0 then
          if idx + 1 < level.length then (level.getD (idx + 1) genesisHash, false)
          else (level.getD idx genesisHash, false)
        else (level.getD (idx - 1) genesisHash, true)
      step :: proofSteps (l2 :: rest) (idx / 2)

/-- Embeds `MerkleTree.prove_inclusion`. -/
def MerkleTree.prove_inclusion (t : MerkleTree) (leaf_index : Nat) :
    Option MerkleProof :=
  if leaf_index ≥ t.leaves.length ∨ t.root = none then none
  else
    some { leaf_hash := (t.leaves.getD leaf_index genesisHash)
           root_hash := match t.root with
             | some r => r
             | none => genesisHash
           proof := proofSteps t.levels leaf_index
           verified := false }

/-- Recombination loop of `MerkleTree.verify_proof`: fold the recorded
siblings onto the leaf hash, respecting the recorded side. -/
def foldProof (steps : List (Hash × Bool)) (start : Hash) : Hash :=
  steps.foldl
    (fun cur step =>
      if step.2 then hash_pair step.1 cur else hash_pair cur step.1)
    start

/-- Embeds `MerkleTree.verify_proof`. -/
def verify_proof (p : MerkleProof) : Bool :=
  foldProof p.proof p.leaf_hash == p.root_hash

/-- The `TimestampAnchor` dataclass (`tsa_response` bytes are kept as an
opaque optional string; both optional fields are `None` at creation). -/
structure TimestampAnchor where
  merkle_root : Hash
  date : String
  timestamp : Int
  timestamped_at : Option String
  tsa_response : Option String
  session_count : Nat
  session_ids : List String
  anchor_hash : Option Hash
  deriving DecidableEq, Repr

/-- Embeds `PeriodicAnchoring._compute_anchor_hash`. -/
def computeAnchorHash (merkle_root : Hash) (date : String) : Hash :=
  Hash.ofRootDate merkle_root date

/-- Mutable state of `PeriodicAnchoring` (the `tsa_url` matters only to
`request_timestamp`, which is unmodelled network I/O). -/
structure PeriodicAnchoring where
  anchors : List TimestampAnchor
  deriving DecidableEq, Repr

/-- Embeds `PeriodicAnchoring.create_daily_anchor` (`now` stands for the
`time.time()` reading): returns the anchor record and the updated state. -/
def PeriodicAnchoring.create_daily_anchor (st : PeriodicAnchoring)
    (merkle_root : Hash) (date : String) (session_ids : List String)
    (now : Int) : TimestampAnchor × PeriodicAnchoring :=
  let anchor : TimestampAnchor :=
    { merkle_root := merkle_root
      date := date
      timestamp := now
      timestamped_at := none
      tsa_response := none
      session_count := session_ids.length
      session_ids := session_ids
      anchor_hash := some (computeAnchorHash merkle_root date) }
  (anchor, { anchors := st.anchors ++ [anchor] })

/-- Embeds `PeriodicAnchoring.verify_anchored_root`: linear scan for an anchor
matching both date and root. -/
def PeriodicAnchoring.verify_anchored_root (st : PeriodicAnchoring)
    (root : Hash) (date : String) : Bool :=
  st.anchors.any (fun a => a.date == date && a.merkle_root == root)

/-- Embeds `PeriodicAnchoring.verify_anchor_integrity`. -/
def PeriodicAnchoring.verify_anchor_integrity (a : TimestampAnchor) : Bool :=
  a.anchor_hash == some (computeAnchorHash a.merkle_root a.date)

/-- Placeholder entry used as the `getD` default in statements; every use
is guarded by an in-bounds hypothesis. -/
def dummyEntry : LedgerEntry :=
  { event_id := 0, timestamp := 0, session_id := "", candidate_id := ""
    actor := "", event_type := "", action := "", payload := [], meta := []
    prev_hash := genesisHash, hash := genesisHash }

/-- Invariant of append-built entry lists: starting after hash `prev` and
id `nid`, each entry stores the running previous hash, consecutive ids,
and a hash recomputable from its own stored fields. -/
def chainedFrom (prev : Hash) (nid : Nat) : List LedgerEntry → Prop
  | [] => True
  | e :: rest =>
      e.prev_hash = prev ∧ e.event_id = nid ∧
      e.hash = recomputeHash e e.prev_hash ∧ chainedFrom e.hash (nid + 1) rest

/-- Hash of the last entry of a list, or `prev` when the list is empty. -/
def endHash (prev : Hash) : List LedgerEntry → Hash
  | [] => prev
  | e :: rest => endHash e.hash rest

/-- The `prev_hash` the next append would use. -/
def lastOrGenesis (l : AuditLedger) : Hash :=
  match l.last_hash with
  | some h => h
  | none => genesisHash

/-- Well-formedness of a ledger state reachable by appends. -/
def wellFormed (l : AuditLedger) : Prop :=
  chainedFrom genesisHash 1 l.entries ∧
  l.next_event_id = l.entries.length + 1 ∧
  lastOrGenesis l = endHash genesisHash l.entries

/-- Replacement of one stored entry's payload, leaving every other field
of that entry (notably its stored `hash` and `prev_hash`) unchanged. -/
def tamperPayload (l : AuditLedger) (k : Nat) (p' : Dict) : AuditLedger :=
  { l with entries :=
      l.entries.set k { l.entries.getD k dummyEntry with payload := p' } }

/-- Concrete append operations used as evaluation inputs. -/
def exOp1 : AppendOp :=
  .legacy 10 "S1" "system" "session_start" [("a", Val.int 1)] "cand"

/-- Second concrete append (a different session, interleaved). -/
def exOp2 : AppendOp :=
  .legacy 11 "S2" "system" "item_viewed" [("a", Val.int 2)] "cand"

/-- Third concrete append (back to the first session). -/
def exOp3 : AppendOp :=
  .legacy 12 "S1" "system" "answer_submitted" [("a", Val.int 3)] "cand"

/-- An append-built one-entry ledger whose stored `prev_hash` field was
then overwritten, its stored `hash` left unchanged. -/
def exTamperedPrev : AuditLedger :=
  { buildLedger [exOp1] with
    entries := (buildLedger [exOp1]).entries.set 0
      { (buildLedger [exOp1]).entries.getD 0 dummyEntry with
        prev_hash := Hash.ofString "tampered" } }

theorem endHash_append (prev : Hash) (xs : List LedgerEntry)
    (e : LedgerEntry) : endHash prev (xs ++ [e]) = e.hash := by
  induction xs generalizing prev with
  | nil => rfl
  | cons x xs ih => simpa [endHash] using ih x.hash

theorem chainedFrom_append (prev : Hash) (nid : Nat)
    (xs : List LedgerEntry) (e : LedgerEntry) :
    chainedFrom prev nid (xs ++ [e]) ↔
      chainedFrom prev nid xs ∧ e.prev_hash = endHash prev xs ∧
      e.event_id = nid + xs.length ∧ e.hash = recomputeHash e e.prev_hash := by
  induction xs generalizing prev nid with
  | nil =>
      simp only [List.nil_append, chainedFrom, endHash, List.length_nil,
        Nat.add_zero]
      tauto
  | cons x xs ih =>
      simp only [List.cons_append, chainedFrom, endHash, List.length_cons]
      constructor
      · rintro ⟨h1, h2, h3, h4⟩
        obtain ⟨c1, c2, c3, c4⟩ := (ih x.hash (nid + 1)).mp h4
        exact ⟨⟨h1, h2, h3, c1⟩, c2, by omega, c4⟩
      · rintro ⟨⟨h1, h2, h3, c1⟩, h5, h6, h7⟩
        exact ⟨h1, h2, h3, (ih x.hash (nid + 1)).mpr ⟨c1, h5, by omega, h7⟩⟩

theorem wellFormed_fresh : wellFormed AuditLedger.fresh := by
  refine ⟨trivial, rfl, rfl⟩

theorem applyOp_spec (l : AuditLedger) (op : AppendOp) :
    ∃ en : LedgerEntry,
      applyOp l op = { entries := l.entries ++ [en]
                       next_event_id := l.next_event_id + 1
                       last_hash := some en.hash } ∧
      en.prev_hash = lastOrGenesis l ∧
      en.event_id = l.next_event_id ∧
      en.hash = recomputeHash en en.prev_hash := by
  cases op with
  | audit e => exact ⟨_, rfl, rfl, rfl, rfl⟩
  | legacy ts sid actor action payload cid => exact ⟨_, rfl, rfl, rfl, rfl⟩

theorem wellFormed_applyOp (l : AuditLedger) (op : AppendOp)
    (h : wellFormed l) : wellFormed (applyOp l op) := by
  obtain ⟨hc, hn, hl⟩ := h
  obtain ⟨en, heq, hprev, hid, hhash⟩ := applyOp_spec l op
  rw [heq]
  refine ⟨?_, ?_, ?_⟩
  · rw [chainedFrom_append]
    exact ⟨hc, by rw [hprev, hl], by omega, hhash⟩
  · simp only [List.length_append, List.length_cons, List.length_nil]
    omega
  · simp [lastOrGenesis, endHash_append]

theorem wellFormed_foldl (ops : List AppendOp) (l : AuditLedger)
    (h : wellFormed l) : wellFormed (ops.foldl applyOp l) := by
  induction ops generalizing l with
  | nil => exact h
  | cons op ops ih => exact ih _ (wellFormed_applyOp l op h)

theorem wellFormed_buildLedger (ops : List AppendOp) :
    wellFormed (buildLedger ops) :=
  wellFormed_foldl ops AuditLedger.fresh wellFormed_fresh

theorem chainedFrom_mem (prev : Hash) (nid : Nat) (xs : List LedgerEntry)
    (h : chainedFrom prev nid xs) (e : LedgerEntry) (he : e ∈ xs) :
    verifyEntryHash e = true := by
  induction xs generalizing prev nid with
  | nil => cases he
  | cons x xs ih =>
      obtain ⟨_, _, hx, hrest⟩ := h
      rcases List.mem_cons.mp he with rfl | hmem
      · simp [verifyEntryHash, hx.symm]
      · exact ih x.hash (nid + 1) hrest hmem

theorem chainedFrom_getD_event_id (prev : Hash) (nid : Nat)
    (xs : List LedgerEntry) (h : chainedFrom prev nid xs) (i : Nat)
    (hi : i < xs.length) : (xs.getD i dummyEntry).event_id = nid + i := by
  induction xs generalizing prev nid i with
  | nil => simp at hi
  | cons x xs ih =>
      obtain ⟨_, hid, _, hrest⟩ := h
      cases i with
      | zero => simpa using hid
      | succ j =>
          have := ih x.hash (nid + 1) hrest j (by simpa using hi)
          simpa [List.getD_cons_succ, Nat.add_assoc, Nat.add_comm 1 j]
            using this

theorem chainedFrom_map_event_id (prev : Hash) (nid : Nat)
    (xs : List LedgerEntry) (h : chainedFrom prev nid xs) :
    xs.map (fun e => e.event_id) = List.range' nid xs.length := by
  induction xs generalizing prev nid with
  | nil => rfl
  | cons x xs ih =>
      obtain ⟨_, hid, _, hrest⟩ := h
      simp [List.range'_succ, hid, ih x.hash (nid + 1) hrest]

theorem chainedFrom_mem_eq_getD (prev : Hash) (nid : Nat)
    (xs : List LedgerEntry) (h : chainedFrom prev nid xs) (e : LedgerEntry)
    (he : e ∈ xs) (m : Nat) (hm : m < xs.length)
    (hid : e.event_id = nid + m) : e = xs.getD m dummyEntry := by
  induction xs generalizing prev nid m with
  | nil => cases he
  | cons x xs ih =>
      obtain ⟨_, hxid, _, hrest⟩ := h
      rcases List.mem_cons.mp he with rfl | hmem
      · cases m with
        | zero => simp
        | succ j =>
            exfalso
            have : e.event_id = nid := hxid
            omega
      · cases m with
        | zero =>
            exfalso
            have h1 := chainedFrom_mem_event_id_ge x.hash (nid + 1) xs
              hrest e hmem
            omega
        | succ j =>
            have := ih x.hash (nid + 1) hrest hmem j (by simpa using hm)
              (by omega)
            simpa [List.getD_cons_succ] using this
where
  /-- Every member of a chained suffix has an id at least the start id. -/
  chainedFrom_mem_event_id_ge (prev : Hash) (nid : Nat)
      (xs : List LedgerEntry) (h : chainedFrom prev nid xs)
      (e : LedgerEntry) (he : e ∈ xs) : nid ≤ e.event_id := by
    induction xs generalizing prev nid with
    | nil => cases he
    | cons x xs ih =>
        obtain ⟨_, hxid, _, hrest⟩ := h
        rcases List.mem_cons.mp he with rfl | hmem
        · omega
        · have := ih x.hash (nid + 1) hrest hmem
          omega

theorem verifyChainFrom_of_chained (prev : Hash) (nid : Nat)
    (xs : List LedgerEntry) (h : chainedFrom prev nid xs) :
    verifyChainFrom prev xs = true := by
  induction xs generalizing prev nid with
  | nil => rfl
  | cons x xs ih =>
      obtain ⟨hp, _, hx, hrest⟩ := h
      subst hp
      simp [verifyChainFrom, ← hx, ih x.hash (nid + 1) hrest]

theorem verifySessionLoop_of_chained (sid : String) (prev : Hash)
    (nid : Nat) (xs : List LedgerEntry) (h : chainedFrom prev nid xs) :
    verifySessionLoop sid prev xs = [] := by
  induction xs generalizing prev nid with
  | nil => rfl
  | cons x xs ih =>
      obtain ⟨hp, _, hx, hrest⟩ := h
      subst hp
      by_cases hs : x.session_id = sid
      · simp [verifySessionLoop, hs, ← hx, ih x.hash (nid + 1) hrest]
      · simp [verifySessionLoop, bne_iff_ne, hs, ih x.hash (nid + 1) hrest]

theorem verifyChainFrom_iff (prev : Hash) (xs : List LedgerEntry) :
    verifyChainFrom prev xs = true ↔
      ∀ i, i < xs.length →
        (xs.getD i dummyEntry).hash =
          recomputeHash (xs.getD i dummyEntry)
            (if i = 0 then prev else (xs.getD (i - 1) dummyEntry).hash) := by
  induction xs generalizing prev with
  | nil => simp [verifyChainFrom]
  | cons x xs ih =>
      simp only [verifyChainFrom]
      by_cases hx : recomputeHash x prev = x.hash
      · simp only [hx, beq_self_eq_true, if_true, ih x.hash]
        constructor
        · intro h i hi
          cases i with
          | zero => simpa using hx.symm
          | succ j =>
              have := h j (by simpa using hi)
              cases j with
              | zero => simpa using this
              | succ k => simpa using this
        · intro h j hj
          have := h (j + 1) (by simpa using hj)
          cases j with
          | zero => simpa using this
          | succ k => simpa using this
      · have hbeq : (recomputeHash x prev == x.hash) = false := by
          simpa using hx
        simp only [hbeq, Bool.false_eq_true, if_false]
        constructor
        · intro h; cases h
        · intro h
          exact absurd (by simpa using (h 0 (by simp)).symm) hx

theorem verifyChainFrom_set_payload (xs : List LedgerEntry) (prev : Hash)
    (nid : Nat) (k : Nat) (p' : Dict) (hc : chainedFrom prev nid xs)
    (hk : k < xs.length)
    (hp : p' ≠ (xs.getD k dummyEntry).payload) :
    verifyChainFrom prev
      (xs.set k { xs.getD k dummyEntry with payload := p' }) = false := by
  induction xs generalizing prev nid k with
  | nil => simp at hk
  | cons x xs ih =>
      obtain ⟨hpx, _, hx, hrest⟩ := hc
      subst hpx
      cases k with
      | zero =>
          simp only [List.set_cons_zero, List.getD_cons_zero,
            verifyChainFrom]
          have hne : recomputeHash { x with payload := p' } x.prev_hash ≠
              { x with payload := p' }.hash := by
            intro hcon
            have h2 : Hash.ofEntry x.event_id x.timestamp x.session_id
                x.candidate_id x.actor x.event_type x.action p' x.meta
                x.prev_hash =
              Hash.ofEntry x.event_id x.timestamp x.session_id
                x.candidate_id x.actor x.event_type x.action x.payload
                x.meta x.prev_hash := by
              have h3 : ({ x with payload := p' } : LedgerEntry).hash =
                  x.hash := rfl
              rw [h3, hx] at hcon
              simpa [recomputeHash, entryContentHash] using hcon
            injection h2 with a1 a2 a3 a4 a5 a6 a7 a8 a9 a10
            exact hp (by simpa using a8)
          simp [hne]
      | succ j =>
          simp only [List.set_cons_succ, List.getD_cons_succ,
            verifyChainFrom, ← hx, beq_self_eq_true, if_true]
          exact ih x.hash (nid + 1) j hrest (by simpa using hk)
            (by simpa using hp)

theorem detect_tampering_reports (l : AuditLedger) (e : LedgerEntry)
    (he : e ∈ l.entries) (hbad : verifyEntryHash e = false) :
    (detect_tampering l e.session_id).1 = true ∧
    Issue.hashMismatch e.event_id ∈ (detect_tampering l e.session_id).2 := by
  have hmem : e ∈ l.get_events_by_session e.session_id := by
    simp [AuditLedger.get_events_by_session, List.mem_filter, he]
  have hnil : l.get_events_by_session e.session_id ≠ [] :=
    List.ne_nil_of_mem hmem
  have hne : (l.get_events_by_session e.session_id).isEmpty = false := by
    simpa [List.isEmpty_iff] using hnil
  have hissue : Issue.hashMismatch e.event_id ∈
      hashIssuesOf (l.get_events_by_session e.session_id) := by
    rw [hashIssuesOf, List.mem_filterMap]
    exact ⟨e, hmem, by simp [hbad]⟩
  have hmem2 : Issue.hashMismatch e.event_id ∈
      gapIssuesOf (l.get_events_by_session e.session_id) ++
        hashIssuesOf (l.get_events_by_session e.session_id) ++
        chainIssues (l.get_events_by_session e.session_id) := by
    rw [List.append_assoc]
    exact List.mem_append_right _ (List.mem_append_left _ hissue)
  rw [detect_tampering]
  simp only [hne, Bool.false_eq_true, if_false]
  have hlenpos := List.length_pos_of_mem hmem2
  refine ⟨by simpa using hlenpos, hmem2⟩

theorem foldl_min_le_init (xs : List Nat) (a : Nat) :
    xs.foldl Nat.min a ≤ a := by
  induction xs generalizing a with
  | nil => exact Nat.le_refl a
  | cons x xs ih =>
      exact Nat.le_trans (ih (Nat.min a x)) (Nat.min_le_left a x)

theorem foldl_min_le_mem (xs : List Nat) (a x : Nat) (hx : x ∈ xs) :
    xs.foldl Nat.min a ≤ x := by
  induction xs generalizing a with
  | nil => cases hx
  | cons y ys ih =>
      rcases List.mem_cons.mp hx with rfl | hmem
      · exact Nat.le_trans (foldl_min_le_init ys (Nat.min a x))
          (Nat.min_le_right a x)
      · exact ih (Nat.min a y) hmem

theorem pyMin_le_mem (xs : List Nat) (x : Nat) (hx : x ∈ xs) :
    pyMin xs ≤ x := by
  cases xs with
  | nil => cases hx
  | cons y ys =>
      rcases List.mem_cons.mp hx with rfl | hmem
      · exact foldl_min_le_init ys x
      · exact foldl_min_le_mem ys y x hmem

theorem init_le_foldl_max (xs : List Nat) (a : Nat) :
    a ≤ xs.foldl Nat.max a := by
  induction xs generalizing a with
  | nil => exact Nat.le_refl a
  | cons x xs ih =>
      exact Nat.le_trans (Nat.le_max_left a x) (ih (Nat.max a x))

theorem mem_le_foldl_max (xs : List Nat) (a x : Nat) (hx : x ∈ xs) :
    x ≤ xs.foldl Nat.max a := by
  induction xs generalizing a with
  | nil => cases hx
  | cons y ys ih =>
      rcases List.mem_cons.mp hx with rfl | hmem
      · exact Nat.le_trans (Nat.le_max_right a x)
          (init_le_foldl_max ys (Nat.max a x))
      · exact ih (Nat.max a y) hmem

theorem mem_le_pyMax (xs : List Nat) (x : Nat) (hx : x ∈ xs) :
    x ≤ pyMax xs := by
  cases xs with
  | nil => cases hx
  | cons y ys =>
      rcases List.mem_cons.mp hx with rfl | hmem
      · exact init_le_foldl_max ys x
      · exact mem_le_foldl_max ys y x hmem

theorem nextLevel_length (l : List Hash) :
    (nextLevel l).length = (l.length + 1) / 2 := by
  induction l using nextLevel.induct with
  | case1 => simp [nextLevel]
  | case2 x => simp [nextLevel]
  | case3 x y rest ih =>
      simp only [nextLevel, List.length_cons, ih]
      omega

theorem buildLevels_ne_nil (l : List Hash) : buildLevels l ≠ [] := by
  rw [buildLevels]
  split <;> simp

theorem nextLevel_getD_full (l : List Hash) (k : Nat)
    (h : 2 * k + 1 < l.length) :
    (nextLevel l).getD k genesisHash =
      hash_pair (l.getD (2 * k) genesisHash)
        (l.getD (2 * k + 1) genesisHash) := by
  induction l using nextLevel.induct generalizing k with
  | case1 => simp at h
  | case2 x => simp at h
  | case3 x y rest ih =>
      cases k with
      | zero => simp [nextLevel]
      | succ j =>
          have hj : 2 * j + 1 < rest.length := by
            simp only [List.length_cons] at h
            omega
          have h2 : 2 * (j + 1) = 2 * j + 1 + 1 := by omega
          simp only [nextLevel, List.getD_cons_succ, h2]
          exact ih j hj

theorem nextLevel_getD_last (l : List Hash) (k : Nat)
    (h : l.length = 2 * k + 1) :
    (nextLevel l).getD k genesisHash =
      hash_pair (l.getD (2 * k) genesisHash)
        (l.getD (2 * k) genesisHash) := by
  induction l using nextLevel.induct generalizing k with
  | case1 => simp at h
  | case2 x =>
      have hk : k = 0 := by
        simp only [List.length_cons, List.length_nil] at h
        omega
      subst hk
      simp [nextLevel]
  | case3 x y rest ih =>
      cases k with
      | zero =>
          exfalso
          simp only [List.length_cons] at h
          omega
      | succ j =>
          have hj : rest.length = 2 * j + 1 := by
            simp only [List.length_cons] at h
            omega
          have h2 : 2 * (j + 1) = 2 * j + 1 + 1 := by omega
          simp only [nextLevel, List.getD_cons_succ, h2]
          exact ih j hj

theorem buildLevels_last_root (l : List Hash) (h : l ≠ []) :
    ((buildLevels l).getLastD []).length = 1 := by
  induction l using buildLevels.induct with
  | case1 l hle =>
      rw [buildLevels, dif_pos hle]
      have : l.length = 1 := by
        cases l with
        | nil => exact absurd rfl h
        | cons x xs =>
            simp only [List.length_cons] at hle ⊢
            omega
      simpa using this
  | case2 l hle ih =>
      rw [buildLevels, dif_neg hle]
      have hne : nextLevel l ≠ [] := by
        have := nextLevel_length l
        intro hcon
        rw [hcon] at this
        simp at this
        omega
      have := ih hne
      cases hbl : buildLevels (nextLevel l) with
      | nil => exact absurd hbl (buildLevels_ne_nil _)
      | cons a rest =>
          rw [hbl] at this
          simpa using this

theorem foldProof_proofSteps (l : List Hash) :
    ∀ idx, idx < l.length →
      foldProof (proofSteps (buildLevels l) idx) (l.getD idx genesisHash)
        = ((buildLevels l).getLastD []).headD genesisHash := by
  induction l using buildLevels.induct with
  | case1 l hle =>
      intro idx hidx
      rw [buildLevels, dif_pos hle]
      have hidx0 : idx = 0 := by omega
      subst hidx0
      cases l with
      | nil => simp at hidx
      | cons x xs => simp [proofSteps, foldProof]
  | case2 l hle ih =>
      intro idx hidx
      rw [buildLevels, dif_neg hle]
      obtain ⟨l2, rest, hbl⟩ : ∃ l2 rest,
          buildLevels (nextLevel l) = l2 :: rest := by
        cases hbl2 : buildLevels (nextLevel l) with
        | nil => exact absurd hbl2 (buildLevels_ne_nil _)
        | cons a b => exact ⟨a, b, rfl⟩
      have hdiv : idx / 2 < (nextLevel l).length := by
        rw [nextLevel_length]
        omega
      have hrec := ih (idx / 2) hdiv
      rw [hbl] at hrec
      rw [hbl]
      simp only [proofSteps, foldProof, List.foldl_cons]
      have hcomb :
          (if ((if (idx % 2 == 0) = true then
                  if idx + 1 < l.length then
                    (l.getD (idx + 1) genesisHash, false)
                  else (l.getD idx genesisHash, false)
                else (l.getD (idx - 1) genesisHash, true)) :
                  Hash × Bool).2 = true then
             hash_pair (if (idx % 2 == 0) = true then
                  if idx + 1 < l.length then
                    (l.getD (idx + 1) genesisHash, false)
                  else (l.getD idx genesisHash, false)
                else (l.getD (idx - 1) genesisHash, true)).1
               (l.getD idx genesisHash)
           else
             hash_pair (l.getD idx genesisHash)
               (if (idx % 2 == 0) = true then
                  if idx + 1 < l.length then
                    (l.getD (idx + 1) genesisHash, false)
                  else (l.getD idx genesisHash, false)
                else (l.getD (idx - 1) genesisHash, true)).1)
          = (nextLevel l).getD (idx / 2) genesisHash := by
        by_cases hpar : idx % 2 = 0
        · have hidx2 : 2 * (idx / 2) = idx := by omega
          by_cases hlt : idx + 1 < l.length
          · rw [nextLevel_getD_full l (idx / 2) (by omega)]
            simp [hpar, hlt, hidx2]
          · have hlen : l.length = 2 * (idx / 2) + 1 := by omega
            rw [nextLevel_getD_last l (idx / 2) hlen]
            simp [hpar, hlt, hidx2]
        · have h1 : 2 * (idx / 2) = idx - 1 := by omega
          have h2 : 2 * (idx / 2) + 1 = idx := by omega
          rw [nextLevel_getD_full l (idx / 2) (by omega)]
          have hpar2 : (idx % 2 == 0) = false := by
            simp [hpar]
          have h3 : idx - 1 + 1 = idx := by omega
          simp [hpar2, h1, h2, h3]
      rw [hcomb]
      rw [foldProof] at hrec
      rw [hrec]
      simp [List.getLastD_cons]

/-- C1 (amended): `verify_chain()` returns true iff every entry's stored
hash equals the hash recomputed from its stored fields with the
`prev_hash` input taken from the running chain — genesis for the first
entry, the previous entry's stored hash thereafter.  The stored
`prev_hash` field itself is never consulted by `verify_chain`. -/
theorem claim_c1_verify_chain_recomputes_running_chain (l : AuditLedger) :
    l.verify_chain = true ↔
      ∀ i, i < l.entries.length →
        (l.entries.getD i dummyEntry).hash =
          recomputeHash (l.entries.getD i dummyEntry)
            (if i = 0 then genesisHash
             else (l.entries.getD (i - 1) dummyEntry).hash) :=
  verifyChainFrom_iff genesisHash l.entries

/-- C1 witness: the characterization evaluated on a concrete one-append
ledger. -/
theorem claim_c1_witness :
    (buildLedger [exOp1]).verify_chain = true ↔
      ∀ i, i < (buildLedger [exOp1]).entries.length →
        ((buildLedger [exOp1]).entries.getD i dummyEntry).hash =
          recomputeHash ((buildLedger [exOp1]).entries.getD i dummyEntry)
            (if i = 0 then genesisHash
             else ((buildLedger [exOp1]).entries.getD (i - 1)
               dummyEntry).hash) :=
  claim_c1_verify_chain_recomputes_running_chain (buildLedger [exOp1])

/-- C1 counterexample: on a one-entry append-built ledger whose stored
`prev_hash` was overwritten (hash left unchanged), `verify_chain()` still
returns true, while the spec's conjunction — stored-field recomputation
matches AND each `prev_hash` equals its predecessor's hash — is false;
so the claimed equivalence fails and altering only `prev_hash` does not
make `verify_chain()` return false. -/
theorem claim_c1_counterexample :
    exTamperedPrev.verify_chain = true ∧
      specVerifyChain exTamperedPrev = false := by
  decide

/-- C2: in any ledger built solely by appends, every stored entry's hash
equals the recomputation from its stored fields plus stored `prev_hash`,
exactly as `_verify_entry_hash` recomputes it. -/
theorem claim_c2_appended_entry_hash_roundtrip (ops : List AppendOp)
    (e : LedgerEntry) (he : e ∈ (buildLedger ops).entries) :
    verifyEntryHash e = true :=
  chainedFrom_mem genesisHash 1 (buildLedger ops).entries
    (wellFormed_buildLedger ops).1 e he

/-- C2 witness: the round-trip law evaluated on the first entry of a
concrete two-append ledger. -/
theorem claim_c2_witness :
    (buildLedger [exOp1, exOp2]).entries.getD 0 dummyEntry ∈
      (buildLedger [exOp1, exOp2]).entries ∧
    verifyEntryHash
      ((buildLedger [exOp1, exOp2]).entries.getD 0 dummyEntry) = true :=
  ⟨by decide, claim_c2_appended_entry_hash_roundtrip [exOp1, exOp2] _
    (by decide)⟩

/-- C4 counterexample: the root hash of a Merkle tree built from an empty
item list is not the all-zero genesis constant. -/
theorem claim_c4_counterexample :
    ¬((MerkleTree.build []).get_root_hash = genesisHash) := by
  decide

/-- C4 (amended): the root hash of a Merkle tree built from an empty item
list equals the fixed empty-hash constant sha256("empty"), which differs
from the all-zero genesis constant used as the first entry's
`prev_hash`. -/
theorem claim_c4_empty_root_is_empty_hash :
    (MerkleTree.build []).get_root_hash = emptyHash ∧
      emptyHash ≠ genesisHash :=
  ⟨rfl, by decide⟩

/-- C6: appending N events to a fresh ledger yields entries whose
`event_id`s are exactly 1..N in append order, and the next-id counter
equals the entry count plus one. -/
theorem claim_c6_sequence_ids_gapless (ops : List AppendOp) :
    (buildLedger ops).entries.map (fun e => e.event_id) =
      List.range' 1 (buildLedger ops).entries.length ∧
    (buildLedger ops).next_event_id = (buildLedger ops).entries.length + 1 ∧
    (buildLedger ops).entries.length = ops.length := by
  obtain ⟨hc, hn, _⟩ := wellFormed_buildLedger ops
  refine ⟨chainedFrom_map_event_id genesisHash 1 _ hc, hn, ?_⟩
  have hfold : ∀ (os : List AppendOp) (l : AuditLedger),
      (os.foldl applyOp l).entries.length = l.entries.length + os.length := by
    intro os
    induction os with
    | nil => intro l; simp
    | cons op os ih =>
        intro l
        obtain ⟨en, heq, -, -, -⟩ := applyOp_spec l op
        rw [List.foldl_cons, ih (applyOp l op), heq]
        simp only [List.length_append, List.length_cons, List.length_nil,
          List.length_cons]
        omega
  have := hfold ops AuditLedger.fresh
  simpa [buildLedger, AuditLedger.fresh] using this

/-- C7: `validate_payload` returns false iff some key required by the
event kind's schema is absent from the payload; keys outside the schema
are never consulted, so adding extra keys never turns a passing
validation into a failing one (and the embedded function is pure). -/
theorem claim_c7_validate_payload_required_keys (e : AuditEvent) :
    (e.validate_payload = false ↔
      ∃ k ∈ requiredFields e.event_type, e.payload.hasKey k = false) ∧
    (∀ extra : Dict, e.validate_payload = true →
      AuditEvent.validate_payload
        { e with payload := e.payload ++ extra } = true) := by
  constructor
  · rw [AuditEvent.validate_payload]
    constructor
    · intro h
      rcases List.all_eq_false.mp h with ⟨k, hk, hkey⟩
      exact ⟨k, hk, by simpa using hkey⟩
    · intro ⟨k, hk, hkey⟩
      apply List.all_eq_false.mpr
      exact ⟨k, hk, by simp [hkey]⟩
  · intro extra h
    rw [AuditEvent.validate_payload] at h ⊢
    rw [List.all_eq_true] at h ⊢
    intro k hk
    have := h k hk
    simp only [Dict.hasKey, List.any_append] at this ⊢
    simp [this]

/-- C7 witness: the characterization evaluated on a concrete
`session_end` event with the required "reason" key present. -/
theorem claim_c7_witness :
    (({ event_type := EventType.session_end, session_id := "S1",
        candidate_id := "cand", timestamp := 10, actor := "system",
        payload := [("reason", Val.str "done")], meta := [] } :
        AuditEvent).validate_payload = false ↔
      ∃ k ∈ requiredFields EventType.session_end,
        Dict.hasKey [("reason", Val.str "done")] k = false) ∧
    (∀ extra : Dict,
      ({ event_type := EventType.session_end, session_id := "S1",
         candidate_id := "cand", timestamp := 10, actor := "system",
         payload := [("reason", Val.str "done")], meta := [] } :
         AuditEvent).validate_payload = true →
      AuditEvent.validate_payload
        { event_type := EventType.session_end, session_id := "S1",
          candidate_id := "cand", timestamp := 10, actor := "system",
          payload := [("reason", Val.str "done")] ++ extra, meta := [] }
        = true) :=
  claim_c7_validate_payload_required_keys
    { event_type := EventType.session_end, session_id := "S1",
      candidate_id := "cand", timestamp := 10, actor := "system",
      payload := [("reason", Val.str "done")], meta := [] }

/-- C8: creating two anchors for the same `(merkle_root, date)` pair
yields anchor records with identical `anchor_hash`, and afterwards
`verify_anchored_root(merkle_root, date)` returns true. -/
theorem claim_c8_anchor_hash_deterministic (st : PeriodicAnchoring)
    (root : Hash) (date : String) (sids1 sids2 : List String)
    (t1 t2 : Int) :
    (st.create_daily_anchor root date sids1 t1).1.anchor_hash =
      ((st.create_daily_anchor root date sids1 t1).2.create_daily_anchor
        root date sids2 t2).1.anchor_hash ∧
    ((st.create_daily_anchor root date sids1 t1).2.create_daily_anchor
      root date sids2 t2).2.verify_anchored_root root date = true := by
  refine ⟨rfl, ?_⟩
  simp [PeriodicAnchoring.create_daily_anchor,
    PeriodicAnchoring.verify_anchored_root]

/-- C10: for a ledger built solely by appends, `verify_session_events`
returns `(true, [])` for every session id — interleaved or not — because
the recomputation walks the whole global chain with the running
predecessor hash; consequently `verify_session` reports
`is_valid = true`. -/
theorem claim_c10_untampered_sessions_valid (ops : List AppendOp)
    (sid now : String) :
    (buildLedger ops).verify_session_events sid = (true, []) ∧
    (verify_session (some (buildLedger ops)) sid now).is_valid = true := by
  obtain ⟨hc, -, -⟩ := wellFormed_buildLedger ops
  have hloop := verifySessionLoop_of_chained sid genesisHash 1
    (buildLedger ops).entries hc
  have h1 : (buildLedger ops).verify_session_events sid = (true, []) := by
    rw [AuditLedger.verify_session_events]
    by_cases hemp : ((buildLedger ops).get_events_by_session sid).isEmpty
    · simp [hemp]
    · simp [hemp, hloop]
  refine ⟨h1, ?_⟩
  rw [verify_session]
  cases hse : (buildLedger ops).get_events_by_session sid with
  | nil => rfl
  | cons e0 restl => simp [h1]

theorem head?_eq_some_headD {α : Type} (L : List α) (d : α)
    (h : L.length = 1) : L.head? = some (L.headD d) := by
  cases L with
  | nil => simp at h
  | cons a b => rfl

/-- C3: for every non-empty item list, every leaf index below the leaf
count gets a proof from `prove_inclusion` that `verify_proof` accepts —
including self-paired leaves at odd-count levels. -/
theorem claim_c3_all_inclusion_proofs_verify (items : List String)
    (hne : items ≠ []) (i : Nat) (hi : i < items.length) :
    ∃ p : MerkleProof,
      (MerkleTree.build items).prove_inclusion i = some p ∧
      verify_proof p = true := by
  obtain ⟨x, rest, rfl⟩ : ∃ x rest, items = x :: rest := by
    cases items with
    | nil => exact absurd rfl hne
    | cons a b => exact ⟨a, b, rfl⟩
  have hlne : (x :: rest).map hash_data ≠ [] := by simp
  have hlast := buildLevels_last_root ((x :: rest).map hash_data) hlne
  have hroot := head?_eq_some_headD
    ((buildLevels ((x :: rest).map hash_data)).getLastD []) genesisHash
    hlast
  have hleaflen : i < ((x :: rest).map hash_data).length := by
    simpa using hi
  simp only [MerkleTree.build, MerkleTree.prove_inclusion]
  rw [if_neg]
  · refine ⟨_, rfl, ?_⟩
    rw [verify_proof]
    simp only [hroot]
    rw [foldProof_proofSteps ((x :: rest).map hash_data) i hleaflen]
    simp
  · rw [hroot]
    push_neg
    constructor
    · omega
    · simp

theorem tamper_detected_of_chained (l : AuditLedger) (k : Nat) (p' : Dict)
    (hc : chainedFrom genesisHash 1 l.entries)
    (hk : k < l.entries.length)
    (hp : p' ≠ (l.entries.getD k dummyEntry).payload) :
    (tamperPayload l k p').verify_chain = false ∧
    (detect_tampering (tamperPayload l k p')
      (l.entries.getD k dummyEntry).session_id).1 = true ∧
    Issue.hashMismatch (l.entries.getD k dummyEntry).event_id ∈
      (detect_tampering (tamperPayload l k p')
        (l.entries.getD k dummyEntry).session_id).2 := by
  have h1 : (tamperPayload l k p').verify_chain = false := by
    rw [AuditLedger.verify_chain, tamperPayload]
    exact verifyChainFrom_set_payload l.entries genesisHash 1 k p' hc hk hp
  have hmem0 : l.entries.getD k dummyEntry ∈ l.entries := by
    rw [List.getD_eq_getElem l.entries dummyEntry hk]
    exact List.getElem_mem hk
  have heh := chainedFrom_mem genesisHash 1 l.entries hc _ hmem0
  have hehash : (l.entries.getD k dummyEntry).hash =
      recomputeHash (l.entries.getD k dummyEntry)
        (l.entries.getD k dummyEntry).prev_hash := by
    rw [verifyEntryHash, beq_iff_eq] at heh
    exact heh.symm
  have hbad : verifyEntryHash
      { l.entries.getD k dummyEntry with payload := p' } = false := by
    rw [verifyEntryHash, beq_eq_false_iff_ne]
    intro hcon
    have hcon2 : Hash.ofEntry (l.entries.getD k dummyEntry).event_id
        (l.entries.getD k dummyEntry).timestamp
        (l.entries.getD k dummyEntry).session_id
        (l.entries.getD k dummyEntry).candidate_id
        (l.entries.getD k dummyEntry).actor
        (l.entries.getD k dummyEntry).event_type
        (l.entries.getD k dummyEntry).action p'
        (l.entries.getD k dummyEntry).meta
        (l.entries.getD k dummyEntry).prev_hash =
        Hash.ofEntry (l.entries.getD k dummyEntry).event_id
        (l.entries.getD k dummyEntry).timestamp
        (l.entries.getD k dummyEntry).session_id
        (l.entries.getD k dummyEntry).candidate_id
        (l.entries.getD k dummyEntry).actor
        (l.entries.getD k dummyEntry).event_type
        (l.entries.getD k dummyEntry).action
        (l.entries.getD k dummyEntry).payload
        (l.entries.getD k dummyEntry).meta
        (l.entries.getD k dummyEntry).prev_hash := by
      have h3 := hcon.trans hehash
      simpa [recomputeHash, entryContentHash] using h3
    injection hcon2 with a1 a2 a3 a4 a5 a6 a7 a8 a9 a10
    exact hp a8
  have hmem' : ({ l.entries.getD k dummyEntry with payload := p' } :
      LedgerEntry) ∈ (tamperPayload l k p').entries :=
    List.mem_set l.entries k hk _
  have hrep := detect_tampering_reports (tamperPayload l k p') _ hmem' hbad
  exact ⟨h1, hrep.1, hrep.2⟩

/-- C5: replacing exactly one stored entry's payload by a different one,
without recomputing its hash, makes `verify_chain()` return false, and
`detect_tampering` on that entry's session returns tampered with a
hash-mismatch issue naming that entry's event id. -/
theorem claim_c5_payload_tamper_detected (ops : List AppendOp) (k : Nat)
    (p' : Dict) (hk : k < (buildLedger ops).entries.length)
    (hp : p' ≠ ((buildLedger ops).entries.getD k dummyEntry).payload) :
    (tamperPayload (buildLedger ops) k p').verify_chain = false ∧
    (detect_tampering (tamperPayload (buildLedger ops) k p')
      ((buildLedger ops).entries.getD k dummyEntry).session_id).1 = true ∧
    Issue.hashMismatch
      ((buildLedger ops).entries.getD k dummyEntry).event_id ∈
      (detect_tampering (tamperPayload (buildLedger ops) k p')
        ((buildLedger ops).entries.getD k dummyEntry).session_id).2 :=
  tamper_detected_of_chained (buildLedger ops) k p'
    (wellFormed_buildLedger ops).1 hk hp

/-- C5 witness: the detection evaluated on a concrete three-append
ledger whose second entry's payload is overwritten. -/
theorem claim_c5_witness :
    1 < (buildLedger [exOp1, exOp2, exOp3]).entries.length ∧
    ([("a", Val.int 99)] : Dict) ≠
      ((buildLedger [exOp1, exOp2, exOp3]).entries.getD 1
        dummyEntry).payload ∧
    ((tamperPayload (buildLedger [exOp1, exOp2, exOp3]) 1
        [("a", Val.int 99)]).verify_chain = false ∧
      (detect_tampering (tamperPayload (buildLedger [exOp1, exOp2, exOp3])
        1 [("a", Val.int 99)])
        ((buildLedger [exOp1, exOp2, exOp3]).entries.getD 1
          dummyEntry).session_id).1 = true ∧
      Issue.hashMismatch
        ((buildLedger [exOp1, exOp2, exOp3]).entries.getD 1
          dummyEntry).event_id ∈
        (detect_tampering (tamperPayload
          (buildLedger [exOp1, exOp2, exOp3]) 1 [("a", Val.int 99)])
          ((buildLedger [exOp1, exOp2, exOp3]).entries.getD 1
            dummyEntry).session_id).2) :=
  ⟨by decide, by decide,
    claim_c5_payload_tamper_detected [exOp1, exOp2, exOp3] 1
      [("a", Val.int 99)] (by decide) (by decide)⟩

/-- C3 witness: the proof for leaf index 1 of the three-leaf tree (whose
third leaf is self-paired) verifies. -/
theorem claim_c3_witness :
    (["a", "b", "c"] : List String) ≠ [] ∧
    1 < (["a", "b", "c"] : List String).length ∧
    ∃ p : MerkleProof,
      (MerkleTree.build ["a", "b", "c"]).prove_inclusion 1 = some p ∧
      verify_proof p = true :=
  ⟨by decide, by decide,
    claim_c3_all_inclusion_proofs_verify ["a", "b", "c"] (by decide) 1
      (by decide)⟩

theorem gapIssuesOf_ne_nil (ses : List LedgerEntry) (v : Nat)
    (hexp : v ∈ List.range' (pyMin (ses.map (fun e => e.event_id)))
      (pyMax (ses.map (fun e => e.event_id)) + 1 -
        pyMin (ses.map (fun e => e.event_id))))
    (hnot : v ∉ ses.map (fun e => e.event_id)) :
    gapIssuesOf ses ≠ [] := by
  simp only [gapIssuesOf]
  rw [if_pos]
  · simp
  · have hmm : v ∈ (List.range' (pyMin (ses.map (fun e => e.event_id)))
        (pyMax (ses.map (fun e => e.event_id)) + 1 -
          pyMin (ses.map (fun e => e.event_id)))).filter
        (fun n => !((ses.map (fun e => e.event_id)).contains n)) := by
      rw [List.mem_filter]
      exact ⟨hexp, by simpa using hnot⟩
    simp only [Bool.not_eq_true', List.isEmpty_iff]
    simpa using List.ne_nil_of_mem hmm

theorem detect_tampering_of_gap (l : AuditLedger) (sid : String)
    (hnil : l.get_events_by_session sid ≠ [])
    (hgap : gapIssuesOf (l.get_events_by_session sid) ≠ []) :
    (detect_tampering l sid).1 = true ∧
    (detect_tampering l sid).2 ≠ [] := by
  have hne : (l.get_events_by_session sid).isEmpty = false := by
    simpa [List.isEmpty_iff] using hnil
  have hinz : gapIssuesOf (l.get_events_by_session sid) ++
      hashIssuesOf (l.get_events_by_session sid) ++
      chainIssues (l.get_events_by_session sid) ≠ [] := by
    exact List.append_ne_nil_of_left_ne_nil
      (List.append_ne_nil_of_left_ne_nil hgap _) _
  rw [detect_tampering]
  simp only [hne, Bool.false_eq_true, if_false]
  refine ⟨?_, hinz⟩
  have := List.length_pos.mpr hinz
  simpa using this

/-- C9: in an append-only ledger where another session's entry sits
between two entries of session `s`, `detect_tampering(s)` reports
tampering with at least one issue: its gap check spans min..max of the
session's event ids and its chain check compares against the previous
same-session entry, so interleaving alone trips it. -/
theorem claim_c9_interleaving_flags_tampering (ops : List AppendOp)
    (s : String) (i m j : Nat) (him : i < m) (hmj : m < j)
    (hj : j < (buildLedger ops).entries.length)
    (hsi : ((buildLedger ops).entries.getD i dummyEntry).session_id = s)
    (hsj : ((buildLedger ops).entries.getD j dummyEntry).session_id = s)
    (hsm : ((buildLedger ops).entries.getD m dummyEntry).session_id ≠ s) :
    (detect_tampering (buildLedger ops) s).1 = true ∧
    (detect_tampering (buildLedger ops) s).2 ≠ [] := by
  obtain ⟨hc, -, -⟩ := wellFormed_buildLedger ops
  have hi : i < (buildLedger ops).entries.length := by omega
  have hm : m < (buildLedger ops).entries.length := by omega
  have hmem_i : (buildLedger ops).entries.getD i dummyEntry ∈
      (buildLedger ops).get_events_by_session s := by
    rw [AuditLedger.get_events_by_session, List.mem_filter]
    constructor
    · rw [List.getD_eq_getElem _ dummyEntry hi]
      exact List.getElem_mem hi
    · simpa using hsi
  have hmem_j : (buildLedger ops).entries.getD j dummyEntry ∈
      (buildLedger ops).get_events_by_session s := by
    rw [AuditLedger.get_events_by_session, List.mem_filter]
    constructor
    · rw [List.getD_eq_getElem _ dummyEntry hj]
      exact List.getElem_mem hj
    · simpa using hsj
  have hid_i := chainedFrom_getD_event_id genesisHash 1
    (buildLedger ops).entries hc i hi
  have hid_j := chainedFrom_getD_event_id genesisHash 1
    (buildLedger ops).entries hc j hj
  have h_i_ids : 1 + i ∈ ((buildLedger ops).get_events_by_session s).map
      (fun e => e.event_id) :=
    List.mem_map.mpr ⟨_, hmem_i, hid_i⟩
  have h_j_ids : 1 + j ∈ ((buildLedger ops).get_events_by_session s).map
      (fun e => e.event_id) :=
    List.mem_map.mpr ⟨_, hmem_j, hid_j⟩
  have h_m_not : 1 + m ∉ ((buildLedger ops).get_events_by_session s).map
      (fun e => e.event_id) := by
    intro hcontr
    obtain ⟨e, hes, hide⟩ := List.mem_map.mp hcontr
    have hee : e ∈ (buildLedger ops).entries :=
      (List.mem_filter.mp hes).1
    have hsid : e.session_id = s := by
      simpa using (List.mem_filter.mp hes).2
    have heq := chainedFrom_mem_eq_getD genesisHash 1
      (buildLedger ops).entries hc e hee m hm hide
    rw [heq] at hsid
    exact hsm hsid
  have hlo := pyMin_le_mem _ (1 + i) h_i_ids
  have hhi := mem_le_pyMax _ (1 + j) h_j_ids
  have h_m_exp : 1 + m ∈ List.range'
      (pyMin (((buildLedger ops).get_events_by_session s).map
        (fun e => e.event_id)))
      (pyMax (((buildLedger ops).get_events_by_session s).map
        (fun e => e.event_id)) + 1 -
        pyMin (((buildLedger ops).get_events_by_session s).map
          (fun e => e.event_id))) := by
    rw [List.mem_range'_1]
    omega
  exact detect_tampering_of_gap (buildLedger ops) s
    (List.ne_nil_of_mem hmem_i)
    (gapIssuesOf_ne_nil _ (1 + m) h_m_exp h_m_not)

/-- C9 witness: the flag evaluated on a concrete ledger whose sessions
"S1" and "S2" interleave (entries at positions 0 and 2 belong to "S1",
position 1 to "S2"). -/
theorem claim_c9_witness :
    (0 : Nat) < 1 ∧ (1 : Nat) < 2 ∧
    2 < (buildLedger [exOp1, exOp2, exOp3]).entries.length ∧
    ((buildLedger [exOp1, exOp2, exOp3]).entries.getD 0
      dummyEntry).session_id = "S1" ∧
    ((buildLedger [exOp1, exOp2, exOp3]).entries.getD 2
      dummyEntry).session_id = "S1" ∧
    ((buildLedger [exOp1, exOp2, exOp3]).entries.getD 1
      dummyEntry).session_id ≠ "S1" ∧
    ((detect_tampering (buildLedger [exOp1, exOp2, exOp3]) "S1").1 = true ∧
      (detect_tampering (buildLedger [exOp1, exOp2, exOp3]) "S1").2 ≠ []) :=
  ⟨by decide, by decide, by decide, by decide, by decide, by decide,
    claim_c9_interleaving_flags_tampering [exOp1, exOp2, exOp3] "S1"
      0 1 2 (by decide) (by decide) (by decide) (by decide) (by decide)
      (by decide)⟩
